import Mathlib

/-!
Verification development for `cleanup_backup.py` (CLEAR2LCMD).

The file shallowly embeds the algorithmic core of the script:
the size-aggregation scanner (`list_large_items`), the directory
ranker/deduplicator, the interactive selection parser and the deletion
executor of `pre_backup_cleanup`, and the helpers `get_file_size` and
`format_size`.

Python strings are modelled as Lean `String`s (lists of characters);
the Python string primitives used by the script (`strip`, `lower`,
`split`, `split('-')`, `startswith`, `endswith`, `int(...)`,
`os.path.dirname`, `os.path.join`) are re-implemented character by
character below.  The script runs on macOS, so `os.sep = "/"`.
-/

namespace Cleanup

/-- Characters treated as whitespace by Python's `str.strip()` / `str.split()`
(ASCII subset, which covers every input the script can receive here). -/
def pyIsSpace (c : Char) : Bool :=
  c = ' ' || c = '\t' || c = '\n' || c = '\r' || c.toNat = 11 || c.toNat = 12

/-- `s.strip(chars)`: drop the characters of `cs` from both ends. -/
def pyStripChars (cs : List Char) (s : String) : String :=
  let l1 := s.data.dropWhile (fun c => cs.contains c)
  ⟨(l1.reverse.dropWhile (fun c => cs.contains c)).reverse⟩

/-- `s.strip()` (whitespace at both ends). -/
def pyStrip (s : String) : String :=
  let l1 := s.data.dropWhile pyIsSpace
  ⟨(l1.reverse.dropWhile pyIsSpace).reverse⟩

/-- `s.lower()` (ASCII). -/
def pyLower (s : String) : String := ⟨s.data.map Char.toLower⟩

/-- `s.startswith(pre)`. -/
def pyStartswith (s pre : String) : Bool := pre.data.isPrefixOf s.data

/-- `s.endswith(suf)`. -/
def pyEndswith (s suf : String) : Bool := suf.data.isSuffixOf s.data

/-- `s.replace(',', ' ')` as used on the command line. -/
def pyReplaceCommas (s : String) : String :=
  ⟨s.data.map (fun c => if c = ',' then ' ' else c)⟩

/-- Helper of `pySplitWS`: accumulate the current (reversed) word. -/
def splitWSAux : List Char → List Char → List String
  | [], cur => if cur = [] then [] else [⟨cur.reverse⟩]
  | c :: rest, cur =>
    if pyIsSpace c then
      if cur = [] then splitWSAux rest []
      else ⟨cur.reverse⟩ :: splitWSAux rest []
    else splitWSAux rest (c :: cur)

/-- `s.split()` with no argument: split on whitespace runs, dropping empties. -/
def pySplitWS (s : String) : List String := splitWSAux s.data []

/-- Helper of `pySplitDash`. -/
def splitDashAux : List Char → List Char → List String
  | [], cur => [⟨cur.reverse⟩]
  | c :: rest, cur =>
    if c = '-' then ⟨cur.reverse⟩ :: splitDashAux rest []
    else splitDashAux rest (c :: cur)

/-- `s.split('-')`. -/
def pySplitDash (s : String) : List String := splitDashAux s.data []

/-- Digits of a Python integer literal, read as a natural number. -/
def digitsToNat (l : List Char) : Nat :=
  l.foldl (fun a c => a * 10 + (c.toNat - '0'.toNat)) 0

/-- No two consecutive underscores. -/
def noDoubleUS : List Char → Bool
  | c1 :: c2 :: rest =>
    if (c1 == '_') && (c2 == '_') then false else noDoubleUS (c2 :: rest)
  | _ => true

/-- Body of Python `int(...)` after the optional sign: decimal digits,
with single underscores allowed strictly between digits. -/
def pyIntDigits (l : List Char) : Option Nat :=
  if (l.all (fun c => c.isDigit || c == '_'))
      && (match l.head? with | some c => c.isDigit | none => false)
      && (match l.getLast? with | some c => c.isDigit | none => false)
      && noDoubleUS l
  then some (digitsToNat (l.filter (fun c => c.isDigit)))
  else none

/-- Python `int(s)` on the token fragments the parser feeds it
(no surrounding whitespace can occur there, since tokens come from
`split()`): optional sign followed by digits; `none` models the
`ValueError` that the bare `except` of the parser swallows. -/
def pyInt (s : String) : Option Int :=
  match s.data with
  | '+' :: rest => (pyIntDigits rest).map Int.ofNat
  | '-' :: rest => (pyIntDigits rest).map (fun n => -(n : Int))
  | l => (pyIntDigits l).map Int.ofNat

/-- Python `range(a, b)` as a list of `Int`. -/
def pyRange (a b : Int) : List Int :=
  if a < b then (List.range (b - a).toNat).map (fun k => a + k) else []

/-- Kind tag of a deletion-set entry (`'file'` / `'dir'` in the script). -/
inductive Kind where
  | file
  | dir
deriving DecidableEq, Repr

/-- One entry of `to_delete`: `(path, size, kind, index)` exactly as the
script builds it. -/
structure DelEntry where
  path : String
  size : Nat
  kind : Kind
  idx : Nat
deriving DecidableEq, Repr

/-- The contribution of one token of the command to `to_delete`
(`pre_backup_cleanup`, token loop body).  A token that raises inside the
`try` (bad `int(...)`, or a `split('-')` that does not unpack into two
parts) contributes nothing; an index out of the current list bounds is
skipped by the `0 <= idx < len(...)` guard. -/
def tokenSelect (current_files current_dirs : List (String × Nat))
    (token0 : String) : List DelEntry :=
  let token := pyStrip token0
  match token.data with
  | [] => []
  | tHead :: tRest =>
    if tHead = 'f' ∨ tHead = 'd' then
      let num_part : String := ⟨tRest⟩
      let indicesOpt : Option (List Int) :=
        if num_part.data.contains '-' then
          match pySplitDash num_part with
          | [startStr, endStr] =>
            match pyInt (pyStripChars ['f', 'd'] startStr),
                  pyInt (pyStripChars ['f', 'd'] endStr) with
            | some a, some b => some (pyRange (a - 1) b)
            | _, _ => none
          | _ => none
        else (pyInt num_part).map (fun n => [n - 1])
      match indicesOpt with
      | none => []
      | some idxs =>
        idxs.filterMap (fun idx =>
          if tHead = 'f' then
            if 0 ≤ idx ∧ idx < (current_files.length : Int) then
              (current_files.get? idx.toNat).map
                (fun e => ⟨e.1, e.2, Kind.file, idx.toNat⟩)
            else none
          else
            if 0 ≤ idx ∧ idx < (current_dirs.length : Int) then
              (current_dirs.get? idx.toNat).map
                (fun e => ⟨e.1, e.2, Kind.dir, idx.toNat⟩)
            else none)
    else []

/-- The token loop of `pre_backup_cleanup`, accumulating `to_delete`. -/
def parseTokens (current_files current_dirs : List (String × Nat))
    (acc : List DelEntry) : List String → List DelEntry
  | [] => acc
  | t :: rest =>
    parseTokens current_files current_dirs
      (acc ++ tokenSelect current_files current_dirs t) rest

/-- Building `to_delete` from one already-`strip().lower()`-ed command:
the extension branch (`cmd.startswith('.')`) or the token loop. -/
def parseSelection (current_files current_dirs : List (String × Nat))
    (cmd : String) : List DelEntry :=
  if pyStartswith cmd "." then
    current_files.enum.filterMap (fun pr =>
      if pyEndswith (pyLower pr.2.1) cmd then
        some ⟨pr.2.1, pr.2.2, Kind.file, pr.1⟩
      else none)
  else parseTokens current_files current_dirs [] (pySplitWS (pyReplaceCommas cmd))

/-! ## Deletion executor (`pre_backup_cleanup`, confirmed branch)

The filesystem is modelled as a map from paths to a `FileState`:
`missing` (`os.path.exists` is false), or a file / directory whose
removal call either succeeds or raises.  The script has no
`try`/`except` around `os.remove` / `shutil.rmtree` in
`pre_backup_cleanup`, so a raising removal is modelled by returning the
state reached so far together with `some path` (the propagating
exception). -/

/-- State of one path in the modelled filesystem.  The `Bool` is true
when the removal call (`os.remove` for a file, `shutil.rmtree` for a
directory) raises. -/
inductive FileState where
  | missing
  | file (removeRaises : Bool)
  | dir (removeRaises : Bool)
deriving DecidableEq, Repr

/-- `list.pop(i)` for an index already validated by the preceding
`list[i]` lookup. -/
def popAt (l : List α) (i : Nat) : List α := l.take i ++ l.drop (i + 1)

/-- Insert into a descending-sorted list (used to model
`sorted(..., reverse=True)`; duplicates are kept). -/
def insertDesc (x : Nat) : List Nat → List Nat
  | [] => [x]
  | y :: ys => if y ≤ x then x :: y :: ys else y :: insertDesc x ys

/-- `sorted(indices, reverse=True)`. -/
def sortDesc (l : List Nat) : List Nat := l.foldr insertDesc []

/-- The `for f_idx in file_back_indices` loop: look the path up in the
current list, remove it from disk when it exists (`os.path.isfile` →
`os.remove`, `elif os.path.isdir` → `shutil.rmtree`), then
`current_files.pop(f_idx)`.  Returns the final list, the paths whose
removal call succeeded, and `some msg` when an exception propagated
(an out-of-range `current_files[f_idx]`, or a raising removal). -/
def deleteFilesPass (fsM : String → FileState) :
    List Nat → List (String × Nat) → List String →
    (List (String × Nat) × List String × Option String)
  | [], cur, removed => (cur, removed, none)
  | i :: rest, cur, removed =>
    match cur.get? i with
    | none => (cur, removed, some "IndexError")
    | some e =>
      match fsM e.1 with
      | .missing => deleteFilesPass fsM rest (popAt cur i) removed
      | .file b =>
        if b then (cur, removed, some e.1)
        else deleteFilesPass fsM rest (popAt cur i) (removed ++ [e.1])
      | .dir b =>
        if b then (cur, removed, some e.1)
        else deleteFilesPass fsM rest (popAt cur i) (removed ++ [e.1])

/-- The `for d_idx in dir_back_indices` loop: `shutil.rmtree` is called
whenever the path exists, and raises on a plain file
(`NotADirectoryError`) or when the directory removal fails. -/
def deleteDirsPass (fsM : String → FileState) :
    List Nat → List (String × Nat) → List String →
    (List (String × Nat) × List String × Option String)
  | [], cur, removed => (cur, removed, none)
  | i :: rest, cur, removed =>
    match cur.get? i with
    | none => (cur, removed, some "IndexError")
    | some e =>
      match fsM e.1 with
      | .missing => deleteDirsPass fsM rest (popAt cur i) removed
      | .file _ => (cur, removed, some e.1)
      | .dir b =>
        if b then (cur, removed, some e.1)
        else deleteDirsPass fsM rest (popAt cur i) (removed ++ [e.1])

/-- Result of executing one confirmed batch. -/
structure ExecResult where
  files : List (String × Nat)
  dirs : List (String × Nat)
  removed : List String
  err : Option String
deriving Repr

/-- The confirmed branch of `pre_backup_cleanup`: split `to_delete` by
kind, sort each index group descending, run the file pass then the dir
pass.  An exception in the file pass prevents the dir pass from
running (it propagates out of the whole function). -/
def execDeletion (fsM : String → FileState) (to_delete : List DelEntry)
    (current_files current_dirs : List (String × Nat))
    (removed : List String) : ExecResult :=
  let file_back_indices :=
    sortDesc ((to_delete.filter (fun it => it.kind = Kind.file)).map (fun it => it.idx))
  let dir_back_indices :=
    sortDesc ((to_delete.filter (fun it => it.kind = Kind.dir)).map (fun it => it.idx))
  match deleteFilesPass fsM file_back_indices current_files removed with
  | (cf, removed1, some e) => ⟨cf, current_dirs, removed1, some e⟩
  | (cf, removed1, none) =>
    match deleteDirsPass fsM dir_back_indices current_dirs removed1 with
    | (cd, removed2, err2) => ⟨cf, cd, removed2, err2⟩

/-- The interactive loop of `pre_backup_cleanup`, driven by the list of
operator inputs (each `input()` call consumes one element; an exhausted
input list ends the session, standing in for end-of-input).  Returns
the final working lists, the filesystem removals performed, and `some
msg` when an exception escaped the loop. -/
def pre_backup_cleanup (fsM : String → FileState) :
    List String → List (String × Nat) → List (String × Nat) → List String →
    (List (String × Nat) × List (String × Nat) × List String × Option String)
  | inputs, current_files, current_dirs, removed =>
    if current_files = [] ∧ current_dirs = [] then
      (current_files, current_dirs, removed, none)
    else
      match inputs with
      | [] => (current_files, current_dirs, removed, none)
      | raw :: rest =>
        let cmd := pyLower (pyStrip raw)
        if cmd = "done" then (current_files, current_dirs, removed, none)
        else
          let to_delete := parseSelection current_files current_dirs cmd
          if to_delete = [] then
            pre_backup_cleanup fsM rest current_files current_dirs removed
          else
            match rest with
            | [] => (current_files, current_dirs, removed, none)
            | confirm :: rest2 =>
              if confirm = "YES" then
                let r := execDeletion fsM to_delete current_files current_dirs removed
                match r.err with
                | some e => (r.files, r.dirs, r.removed, some e)
                | none => pre_backup_cleanup fsM rest2 r.files r.dirs r.removed
              else pre_backup_cleanup fsM rest2 current_files current_dirs removed

/-! ## Size-aggregation scanner (`list_large_items`, scan phase)

For the aggregation claims the filesystem below one scan root is a
finite tree and paths are modelled as lists of components
(`os.path.dirname` = `List.dropLast`, `os.path.join` = append) — the
normalized form `os.walk` produces for the built-in roots.  The
string-level `os.path.dirname` corner cases are modelled separately
below for the termination claim.  A file carries `Option Nat`: `none`
is a file whose `os.path.getsize` raises `OSError`. -/

/-- `get_file_size`: size of a file, `0` when the size read fails. -/
def get_file_size (sz : Option Nat) : Nat := sz.getD 0

/-- A directory tree: name, directly contained files (name, readable
size), subdirectories. -/
inductive FsTree where
  | node (name : String) (fls : List (String × Option Nat)) (subs : List FsTree)

/-- Name of the directory at the root of the tree. -/
def FsTree.name : FsTree → String
  | .node n _ _ => n

/-- Sum of all file sizes at or beneath the tree (unreadable files count
as `0`) — the spec's right-hand side for cumulative sizes. -/
def totalSize (t : FsTree) : Nat :=
  match t with
  | .node _ fls subs =>
    fls.foldl (fun a f => a + get_file_size f.2) 0
      + subs.attach.foldl (fun a tp => a + totalSize tp.1) 0
termination_by sizeOf t
decreasing_by
  have := List.sizeOf_lt_of_mem tp.2
  simp only [FsTree.node.sizeOf_spec]
  omega

/-- Sum of `totalSize` over a forest. -/
def totalSizeList (ts : List FsTree) : Nat :=
  ts.foldl (fun a t => a + totalSize t) 0

/-- Pointwise bump of the `dir_sizes` map:
`dir_sizes[p] = dir_sizes.get(p, 0) + n` (the map carries default `0`). -/
def bump (p : List String) (n : Nat) (m : List String → Nat) : List String → Nat :=
  fun q => if q = p then m q + n else m q

/-- The ancestor climb, iterating over the reversed relative path: bump
the deepest directory first, then its parent, and stop after bumping
the scan root itself (`temp_path == source` breaks the `while`; the
`temp_path == os.path.dirname(source)` guard is unreachable for
component paths, whose roots are normalized). -/
def climbRev (source : List String) (n : Nat) :
    List String → (List String → Nat) → (List String → Nat)
  | [], m => bump source n m
  | c :: rest, m => climbRev source n rest (bump (source ++ (c :: rest).reverse) n m)

/-- The `while True` accumulation loop of `list_large_items` for one
walked directory `source ++ rel`. -/
def climbRel (source rel : List String) (n : Nat)
    (m : List String → Nat) : List String → Nat :=
  climbRev source n rel.reverse m

/-- Scanner state: `all_files` so far and the `dir_sizes` map. -/
structure ScanSt where
  files : List (List String × Nat)
  dirSizes : List String → Nat

/-- One `os.walk` step of `list_large_items` at directory `source ++ rel`:
sum the direct file sizes (`current_dir_size`), append the files larger
than 1 MiB to `all_files`, climb the ancestors, then recurse into the
subdirectories in order (top-down walk). -/
def walkTree (source rel : List String) (t : FsTree) (st : ScanSt) : ScanSt :=
  match t with
  | .node _ fls subs =>
    subs.attach.foldl
      (fun s tp => walkTree source (rel ++ [tp.1.name]) tp.1 s)
      ⟨st.files ++ fls.filterMap (fun f =>
          if 1024 * 1024 < get_file_size f.2 then
            some ((source ++ rel) ++ [f.1], get_file_size f.2)
          else none),
        climbRel source rel (fls.foldl (fun a f => a + get_file_size f.2) 0) st.dirSizes⟩
termination_by sizeOf t
decreasing_by
  have := List.sizeOf_lt_of_mem tp.2
  simp only [FsTree.node.sizeOf_spec]
  omega

/-- The walk continued over the remaining sibling subtrees. -/
def walkList (source rel : List String) (ts : List FsTree) (st : ScanSt) : ScanSt :=
  ts.foldl (fun s t => walkTree source (rel ++ [t.name]) t s) st

/-- The files of the tree whose `get_file_size` strictly exceeds 1 MiB,
with their full paths — the characterization of what the scan appends
to `all_files`. -/
def bigFiles (source rel : List String) (t : FsTree) : List (List String × Nat) :=
  match t with
  | .node _ fls subs =>
    fls.filterMap (fun f =>
      if 1024 * 1024 < get_file_size f.2 then
        some ((source ++ rel) ++ [f.1], get_file_size f.2)
      else none)
    ++ subs.attach.foldl (fun acc tp => acc ++ bigFiles source (rel ++ [tp.1.name]) tp.1) []
termination_by sizeOf t
decreasing_by
  have := List.sizeOf_lt_of_mem tp.2
  simp only [FsTree.node.sizeOf_spec]
  omega

/-- `bigFiles` over a forest. -/
def bigFilesList (source rel : List String) (ts : List FsTree) : List (List String × Nat) :=
  ts.foldl (fun acc t => acc ++ bigFiles source (rel ++ [t.name]) t) []

/-- The empty scanner state (`all_files = []`, `dir_sizes = {}`). -/
def initScan : ScanSt := ⟨[], fun _ => 0⟩

/-! ## Directory ranker / deduplicator (`list_large_items`, ranking phase) -/

/-- The candidate list:
`[(d, s) for d, s in dir_sizes.items() if any(d.startswith(src) and d != src for src in SOURCE_DIRS)]`
(the scanned `dir_sizes` is passed as an association list in its
iteration order). -/
def candidateDirs (sources : List String) (dir_sizes : List (String × Nat)) :
    List (String × Nat) :=
  dir_sizes.filter (fun ds => sources.any (fun src => pyStartswith ds.1 src && ds.1 ≠ src))

/-- Stable insertion for descending sort by size (`sorted(...,
key=lambda x: x[1], reverse=True)`): an element moves left past
strictly smaller sizes only. -/
def insertBySizeDesc (x : String × Nat) : List (String × Nat) → List (String × Nat)
  | [] => [x]
  | y :: ys => if y.2 ≤ x.2 then x :: y :: ys else y :: insertBySizeDesc x ys

/-- `sorted(candidates, key=lambda x: x[1], reverse=True)` (stable). -/
def sortBySizeDesc (l : List (String × Nat)) : List (String × Nat) :=
  l.foldr insertBySizeDesc []

/-- `raw_sorted_dirs` of `list_large_items`. -/
def raw_sorted_dirs (sources : List String) (dir_sizes : List (String × Nat)) :
    List (String × Nat) :=
  sortBySizeDesc (candidateDirs sources dir_sizes)

/-- The redundancy test of the dedup loop: some already accepted entry
`existing` satisfies
`d_path.startswith(existing_path + os.sep) or d_path == existing_path`. -/
def isRedundant (d : String) (acc : List (String × Nat)) : Bool :=
  acc.any (fun ex => pyStartswith d (ex.1 ++ "/") || d = ex.1)

/-- The dedup loop of `list_large_items`: accept a candidate unless an
accepted entry is already an ancestor (or the same path); stop as soon
as the accepted list reaches `limit`. -/
def dedupLoop (limit : Nat) (acc : List (String × Nat)) :
    List (String × Nat) → List (String × Nat)
  | [] => acc
  | (d, s) :: rest =>
    let acc' := if isRedundant d acc then acc else acc ++ [(d, s)]
    if limit ≤ acc'.length then acc' else dedupLoop limit acc' rest

/-- `deduped_dirs` of `list_large_items` (default `limit` is 20). -/
def deduped_dirs (limit : Nat) (sources : List String)
    (dir_sizes : List (String × Nat)) : List (String × Nat) :=
  dedupLoop limit [] (raw_sorted_dirs sources dir_sizes)

/-! ## String-level `os.path.dirname` / `os.path.join` and the climb loop

These model the POSIX implementations Python uses on macOS, for the
termination analysis of the `while True` accumulation loop. -/

/-- Everything up to and including the last `'/'` of the string
(`p[:p.rfind('/') + 1]`); empty when there is no slash. -/
def headThroughLastSlash : List Char → List Char
  | [] => []
  | c :: rest =>
    if '/' ∈ rest then c :: headThroughLastSlash rest
    else if c = '/' then [c] else []

/-- `rstrip('/')`. -/
def rstripSlashes (l : List Char) : List Char :=
  (l.reverse.dropWhile (fun c => c = '/')).reverse

/-- `os.path.dirname(p)` (posixpath): the head up to the last slash,
with trailing slashes stripped unless the head is empty or consists
only of slashes. -/
def pyDirname (p : String) : String :=
  let head := headThroughLastSlash p.data
  if head = [] ∨ head.all (fun c => c = '/') then ⟨head⟩ else ⟨rstripSlashes head⟩

/-- `os.path.join(a, b)` (posixpath) for a non-absolute `b`:
concatenate, inserting a slash unless `a` is empty or already ends with
one. -/
def pyJoin (a b : String) : String :=
  if pyStartswith b "/" then b
  else if a = "" ∨ pyEndswith a "/" then a ++ b
  else a ++ "/" ++ b

/-- The `while True` accumulation loop over string paths, with fuel:
bump `dir_sizes[temp_path]`, stop when `temp_path` equals `source` or
`os.path.dirname(source)`, otherwise climb to the dirname.  `none`
means the loop is still running after `fuel` iterations (the loop runs
forever iff this is `none` for every fuel). -/
def climbLoop (fuel : Nat) (source temp : String) (n : Nat)
    (m : String → Nat) : Option (String → Nat) :=
  match fuel with
  | 0 => none
  | fuel + 1 =>
    let m' : String → Nat := fun q => if q = temp then m q + n else m q
    if temp = source ∨ temp = pyDirname source then some m'
    else climbLoop fuel source (pyDirname temp) n m'

/-! ## `format_size`

The Python function divides by 1024 in floating point; every quantity
it compares against 1024 is an integer scaled by a power of two (and
integer sizes below `2^53` convert exactly), so exact rational
arithmetic models the comparisons faithfully.  The rendered digit
string (`f"{size:.2f}"`) is reproduced up to the rounding of the last
decimal, which no claim depends on. -/

/-- Two-decimal rendering of a nonnegative rational. -/
def fmt2 (q : ℚ) : String :=
  let c : Int := ⌊q * 100⌋
  let whole := c / 100
  let frac := (c % 100).toNat
  toString whole ++ "." ++ (if frac < 10 then "0" else "") ++ toString frac

/-- The unit loop of `format_size`. -/
def format_size_go (q : ℚ) : List String → Option String
  | [] => none
  | u :: us =>
    if q < 1024 then some (fmt2 q ++ " " ++ u)
    else format_size_go (q / 1024) us

/-- `format_size(size)`: `"0 B"` for zero, otherwise try the units `B`,
`KB`, `MB`, `GB`, `TB`, dividing by 1024 between units; falling off the
loop returns Python's implicit `None`. -/
def format_size (size : Nat) : Option String :=
  if size = 0 then some "0 B"
  else format_size_go (size : ℚ) ["B", "KB", "MB", "GB", "TB"]

/-- `True` when the removal call on a path in this state raises. -/
def removeRaises : FileState → Bool
  | .missing => false
  | .file b => b
  | .dir b => b

/-- `b` is neither equal to `a` nor strictly below it
(`not (b.path.startswith(a.path + os.sep) or b.path == a.path)`). -/
def notDescendant (a b : String × Nat) : Prop :=
  ¬(pyStartswith b.1 (a.1 ++ "/") = true ∨ b.1 = a.1)

/-! ## Supporting lemmas -/

theorem popAt_length (l : List α) (i : Nat) (h : i < l.length) :
    (popAt l i).length + 1 = l.length := by
  simp only [popAt, List.length_append, List.length_take, List.length_drop]
  omega

theorem dedupLoop_pairwise (limit : Nat) (rest : List (String × Nat)) :
    ∀ acc : List (String × Nat), List.Pairwise notDescendant acc →
      List.Pairwise notDescendant (dedupLoop limit acc rest) := by
  induction rest with
  | nil => intro acc h; simpa [dedupLoop] using h
  | cons p rest ih =>
    intro acc h
    obtain ⟨d, s⟩ := p
    by_cases hred : isRedundant d acc
    · simp only [dedupLoop, hred, if_true]
      split
      · exact h
      · exact ih acc h
    · have hredf : isRedundant d acc = false := by
        exact Bool.not_eq_true _ ▸ (by simpa using hred)
      have hall : ∀ ex ∈ acc, notDescendant ex (d, s) := by
        intro ex hex
        have hx := List.any_eq_false.mp hredf ex hex
        simp only [Bool.or_eq_true, decide_eq_true_eq, not_or] at hx
        intro hcontra
        rcases hcontra with hpre | heq
        · exact hx.1 hpre
        · exact hx.2 heq
      have h' : List.Pairwise notDescendant (acc ++ [(d, s)]) := by
        rw [List.pairwise_append]
        refine ⟨h, List.pairwise_singleton _ _, ?_⟩
        intro a ha b hb
        simp only [List.mem_singleton] at hb
        subst hb
        exact hall a ha
      simp only [dedupLoop, hredf, Bool.false_eq_true, if_false]
      split
      · exact h'
      · exact ih _ h'

/-! ## Claims -/

/-- C5 (confirmed).  Every pair of entries of the deduplicated ranked
directory list, in order, satisfies: the later path neither equals the
earlier one nor starts with it followed by the separator — the dedup
loop only accepts a candidate after checking it against every already
accepted entry (`List.Pairwise` states exactly the `i < j` form of the
claim). -/
theorem c5_ranked_no_double_count (limit : Nat) (sources : List String)
    (dir_sizes : List (String × Nat)) :
    List.Pairwise notDescendant (deduped_dirs limit sources dir_sizes) :=
  dedupLoop_pairwise limit _ [] List.Pairwise.nil

/-- C3, counterexample.  With the scan roots `/a/b` and `/a/bc` — one
root's path a string prefix of the other — the root `/a/bc` itself
passes the candidate filter `d.startswith(src) and d != src` (via
`src = "/a/b"`), so a scan root is ranked, contradicting the claim that
every root is excluded for every configuration. -/
theorem c3_counterexample :
    "/a/bc" ∈ ["/a/b", "/a/bc"] ∧
    ("/a/bc", 7) ∈
      candidateDirs ["/a/b", "/a/bc"] [("/a/b", 10), ("/a/bc", 7), ("/a/b/y", 5)] := by
  decide

/-- C3, amended.  Candidates are exactly the `dir_sizes` entries that
start with some root and differ from it as strings; whenever no root
starts with another root (boundary-safe configurations — in particular
the built-in ones), every scan root is excluded from the candidates. -/
theorem c3_roots_excluded (sources : List String) (dir_sizes : List (String × Nat))
    (hpre : ∀ r ∈ sources, ∀ src ∈ sources, pyStartswith r src = true → r = src)
    (e : String × Nat) (he : e ∈ candidateDirs sources dir_sizes) :
    e.1 ∉ sources ∧ ∃ src ∈ sources, pyStartswith e.1 src = true ∧ e.1 ≠ src := by
  have hmem := List.mem_filter.mp he
  obtain ⟨src, hsrc, hcond⟩ := List.any_eq_true.mp hmem.2
  simp only [Bool.and_eq_true, decide_eq_true_eq] at hcond
  refine ⟨?_, src, hsrc, hcond.1, hcond.2⟩
  intro hroot
  exact hcond.2 (hpre e.1 hroot src hsrc hcond.1)

theorem c3_roots_excluded_witness :
    ("/a/b/x", 4).1 ∉ ["/a/b", "/c"] ∧
    ∃ src ∈ ["/a/b", "/c"], pyStartswith ("/a/b/x", 4).1 src = true ∧ ("/a/b/x", 4).1 ≠ src :=
  c3_roots_excluded ["/a/b", "/c"] [("/a/b/x", 4)] (by decide) ("/a/b/x", 4) (by decide)

/-- C1, counterexample.  The command `f1, f1` against a two-file list
produces a `to_delete` with the entry for file 1 twice — the script
never deduplicates — so the deletion set does not contain exactly one
entry for the (file, 1) pair. -/
theorem c1_counterexample :
    parseSelection [("a", 2000000), ("b", 3000000)] [] "f1, f1"
        = [⟨"a", 2000000, Kind.file, 0⟩, ⟨"a", 2000000, Kind.file, 0⟩] ∧
    ¬((parseSelection [("a", 2000000), ("b", 3000000)] [] "f1, f1").countP
        (fun e => decide (e.kind = Kind.file) && decide (e.idx = 0)) = 1) := by
  decide

/-- C1, amended.  The deletion set keeps one entry per reference
occurrence (duplicates included), and the descending-index removal pass
pops one list element per entry: whenever the file pass finishes
without an exception, the working list shrinks by the number of index
entries counted with multiplicity — so a duplicated index removes an
additional, unreferenced element rather than collapsing to one
removal. -/
theorem c1_pop_per_entry (fsM : String → FileState) (idxs : List Nat)
    (cur : List (String × Nat)) (removed : List String)
    (cur' : List (String × Nat)) (removed' : List String)
    (h : deleteFilesPass fsM idxs cur removed = (cur', removed', none)) :
    cur'.length + idxs.length = cur.length := by
  induction idxs generalizing cur removed with
  | nil =>
    simp only [deleteFilesPass, Prod.mk.injEq] at h
    rw [← h.1]
    simp
  | cons i rest ih =>
    rw [deleteFilesPass] at h
    split at h
    · exact absurd h (by simp)
    · rename_i e hg
      obtain ⟨hi, -⟩ := List.get?_eq_some.mp hg
      have hpop := popAt_length cur i hi
      split at h
      · have := ih _ _ h
        simp only [List.length_cons]
        omega
      · split at h
        · exact absurd h (by simp)
        · have := ih _ _ h
          simp only [List.length_cons]
          omega
      · split at h
        · exact absurd h (by simp)
        · have := ih _ _ h
          simp only [List.length_cons]
          omega

theorem c1_pop_per_entry_witness :
    ([] : List (String × Nat)).length + [0, 0].length
      = ([("a", 1), ("b", 2)] : List (String × Nat)).length :=
  c1_pop_per_entry (fun _ => FileState.file false) [0, 0]
    [("a", 1), ("b", 2)] [] [] ["a", "b"] (by decide)

/-- C2, counterexample.  Two files selected (descending pass `[1, 0]`);
removing `b` (index 1) raises.  The executor stops at once with the
exception: `a`, though deletable, is neither removed from disk nor from
the working list — the failure aborts the sibling deletions, contrary
to the claim. -/
theorem c2_counterexample :
    deleteFilesPass
        (fun p => if p = "b" then FileState.file true else FileState.file false)
        [1, 0] [("a", 1), ("b", 2)] []
      = ([("a", 1), ("b", 2)], [], some "b") := by
  decide

/-- C2, amended.  In `pre_backup_cleanup` a removal call that raises is
not caught: the pass returns immediately with the exception and the
remaining entries of the batch are never processed; only a path that no
longer exists is tolerated (skipped on disk, still popped from the
working list, and the pass continues).  Per-item reporting with
continuation exists only in the post-backup `cleanup_files`. -/
theorem c2_failure_aborts_batch (fsM : String → FileState) (i : Nat)
    (rest : List Nat) (cur : List (String × Nat)) (removed : List String)
    (p : String) (sz : Nat) (hi : cur.get? i = some (p, sz)) :
    (removeRaises (fsM p) = true →
      deleteFilesPass fsM (i :: rest) cur removed = (cur, removed, some p)) ∧
    (fsM p = FileState.missing →
      deleteFilesPass fsM (i :: rest) cur removed
        = deleteFilesPass fsM rest (popAt cur i) removed) := by
  constructor
  · intro hraise
    simp only [deleteFilesPass, hi]
    cases hfs : fsM p with
    | missing => rw [hfs] at hraise; simp [removeRaises] at hraise
    | file b =>
      rw [hfs] at hraise
      simp only [removeRaises] at hraise
      simp [hraise]
    | dir b =>
      rw [hfs] at hraise
      simp only [removeRaises] at hraise
      simp [hraise]
  · intro hmiss
    simp only [deleteFilesPass, hi, hmiss]

theorem c2_failure_aborts_batch_witness :
    deleteFilesPass (fun _ => FileState.dir true) [0] [("x", 5)] []
      = ([("x", 5)], [], some "x") :=
  (c2_failure_aborts_batch (fun _ => FileState.dir true) 0 [] [("x", 5)] [] "x" 5
    (by decide)).1 (by decide)

theorem parseTokens_eq_flatten (cf cd : List (String × Nat)) (ts : List String) :
    ∀ acc, parseTokens cf cd acc ts = acc ++ (ts.map (tokenSelect cf cd)).flatten := by
  induction ts with
  | nil => intro acc; simp [parseTokens]
  | cons t rest ih =>
    intro acc
    rw [parseTokens, ih]
    simp [List.append_assoc]

/-- C7, counterexample.  The mixed-prefix range `f1-d3` is not dropped:
`strip('fd')` removes the `d` from the second endpoint and the token
selects files 1–3 of the current list, so a mixed range selects
entries rather than nothing. -/
theorem c7_counterexample :
    parseSelection [("a", 5), ("b", 6), ("c", 7)] [] "f1-d3"
        = [⟨"a", 5, Kind.file, 0⟩, ⟨"b", 6, Kind.file, 1⟩, ⟨"c", 7, Kind.file, 2⟩] ∧
    parseSelection [("a", 5), ("b", 6), ("c", 7)] [] "f1-d3" ≠ [] := by
  decide

/-- C7, amended.  Each token's contribution is computed from that token
alone and concatenated (dropping a malformed / unknown-prefix token or
an out-of-bounds index never affects the others), and the command yields
"no valid items" exactly when every token contributed nothing.  A
mixed-prefix range such as `F1-D3` is however not malformed: both
endpoints are stripped of `f`/`d` characters and the range takes the
kind of the token's first character (see the counterexample). -/
theorem c7_token_independence (current_files current_dirs : List (String × Nat))
    (cmd : String) (hdot : pyStartswith cmd "." = false) :
    parseSelection current_files current_dirs cmd
        = ((pySplitWS (pyReplaceCommas cmd)).map
            (tokenSelect current_files current_dirs)).flatten ∧
    (parseSelection current_files current_dirs cmd = [] ↔
      ∀ t ∈ pySplitWS (pyReplaceCommas cmd),
        tokenSelect current_files current_dirs t = []) := by
  have hp : parseSelection current_files current_dirs cmd
      = ((pySplitWS (pyReplaceCommas cmd)).map
          (tokenSelect current_files current_dirs)).flatten := by
    rw [parseSelection]
    simp only [hdot, Bool.false_eq_true, if_false]
    rw [parseTokens_eq_flatten]
    simp
  refine ⟨hp, ?_⟩
  rw [hp, List.flatten_eq_nil_iff]
  constructor
  · intro hall t ht
    exact hall _ (List.mem_map_of_mem _ ht)
  · intro hall l hl
    obtain ⟨t, ht, rfl⟩ := List.mem_map.mp hl
    exact hall t ht

theorem c7_token_independence_witness :
    (parseSelection [("a", 2)] [] "f1"
        = ((pySplitWS (pyReplaceCommas "f1")).map (tokenSelect [("a", 2)] [])).flatten) ∧
    (parseSelection [("a", 2)] [] "f1" = [] ↔
      ∀ t ∈ pySplitWS (pyReplaceCommas "f1"), tokenSelect [("a", 2)] [] t = []) :=
  c7_token_independence [("a", 2)] [] "f1" (by decide)

/-- C8 (confirmed).  When the operator's pending selection is nonempty
and the confirmation input is anything other than the exact literal
`YES` (case-sensitive: `confirm = input(...)` is compared without
transformation), the session behaves exactly as if the round had not
happened: no path is removed, both working lists and the removal log
are unchanged, and the loop continues with the remaining inputs. -/
theorem c8_confirm_guard (fsM : String → FileState) (raw confirm : String)
    (rest : List String) (current_files current_dirs : List (String × Nat))
    (removed : List String)
    (hne : ¬(current_files = [] ∧ current_dirs = []))
    (hdone : pyLower (pyStrip raw) ≠ "done")
    (hsel : parseSelection current_files current_dirs (pyLower (pyStrip raw)) ≠ [])
    (hc : confirm ≠ "YES") :
    pre_backup_cleanup fsM (raw :: confirm :: rest) current_files current_dirs removed
      = pre_backup_cleanup fsM rest current_files current_dirs removed := by
  rw [pre_backup_cleanup]
  simp only [hne, if_false, hdone, hsel, hc, ite_false]

theorem c8_confirm_guard_witness :
    pre_backup_cleanup (fun _ => FileState.file false) ["f1", "no"] [("a", 2)] [] []
      = pre_backup_cleanup (fun _ => FileState.file false) [] [("a", 2)] [] [] :=
  c8_confirm_guard (fun _ => FileState.file false) "f1" "no" [] [("a", 2)] [] []
    (by decide) (by decide) (by decide) (by decide)

theorem append_ne_self_of_ne_nil (source l : List String) (h : l ≠ []) :
    source ++ l ≠ source := by
  intro he
  have := congrArg List.length he
  simp only [List.length_append] at this
  exact h (List.eq_nil_of_length_eq_zero (by omega))

theorem bump_self (p : List String) (n : Nat) (m : List String → Nat) :
    bump p n m p = m p + n := by simp [bump]

theorem bump_ne (p q : List String) (n : Nat) (m : List String → Nat)
    (h : q ≠ p) : bump p n m q = m q := by simp [bump, h]

theorem climbRev_source (source : List String) (n : Nat) (rr : List String)
    (m : List String → Nat) : climbRev source n rr m source = m source + n := by
  induction rr generalizing m with
  | nil => simp [climbRev, bump]
  | cons c rest ih =>
    rw [climbRev, ih]
    rw [bump_ne _ _ _ _ (Ne.symm (append_ne_self_of_ne_nil _ _ (by simp)))]

theorem climbRel_source (source rel : List String) (n : Nat)
    (m : List String → Nat) : climbRel source rel n m source = m source + n :=
  climbRev_source source n rel.reverse m

theorem walkTree_unfold (source rel : List String) (nm : String)
    (fls : List (String × Option Nat)) (subs : List FsTree) (st : ScanSt) :
    walkTree source rel (.node nm fls subs) st
      = walkList source rel subs
          ⟨st.files ++ fls.filterMap (fun f =>
              if 1024 * 1024 < get_file_size f.2 then
                some ((source ++ rel) ++ [f.1], get_file_size f.2)
              else none),
            climbRel source rel (fls.foldl (fun a f => a + get_file_size f.2) 0)
              st.dirSizes⟩ := by
  rw [walkTree, walkList]
  exact List.foldl_attach subs (fun s t => walkTree source (rel ++ [t.name]) t s) _

theorem totalSize_unfold (nm : String) (fls : List (String × Option Nat))
    (subs : List FsTree) :
    totalSize (.node nm fls subs)
      = fls.foldl (fun a f => a + get_file_size f.2) 0 + totalSizeList subs := by
  rw [totalSize, totalSizeList]
  exact congrArg _ (List.foldl_attach subs (fun a t => a + totalSize t) 0)

theorem bigFiles_unfold (source rel : List String) (nm : String)
    (fls : List (String × Option Nat)) (subs : List FsTree) :
    bigFiles source rel (.node nm fls subs)
      = fls.filterMap (fun f =>
          if 1024 * 1024 < get_file_size f.2 then
            some ((source ++ rel) ++ [f.1], get_file_size f.2)
          else none)
        ++ bigFilesList source rel subs := by
  rw [bigFiles, bigFilesList]
  exact congrArg _
    (List.foldl_attach subs (fun acc t => acc ++ bigFiles source (rel ++ [t.name]) t) [])

theorem foldl_add_out (g : FsTree → Nat) (l : List FsTree) (b : Nat) :
    l.foldl (fun a t => a + g t) b = b + l.foldl (fun a t => a + g t) 0 := by
  induction l generalizing b with
  | nil => simp
  | cons t ts ih =>
    simp only [List.foldl_cons]
    rw [ih (b + g t), ih (0 + g t)]
    omega

theorem totalSizeList_cons (t : FsTree) (ts : List FsTree) :
    totalSizeList (t :: ts) = totalSize t + totalSizeList ts := by
  unfold totalSizeList
  simp only [List.foldl_cons]
  rw [foldl_add_out]
  omega

theorem foldl_append_out (g : FsTree → List (List String × Nat)) (l : List FsTree)
    (b : List (List String × Nat)) :
    l.foldl (fun a t => a ++ g t) b = b ++ l.foldl (fun a t => a ++ g t) [] := by
  induction l generalizing b with
  | nil => simp
  | cons t ts ih =>
    simp only [List.foldl_cons]
    rw [ih (b ++ g t), ih ([] ++ g t)]
    simp [List.append_assoc]

theorem bigFilesList_cons (source rel : List String) (t : FsTree) (ts : List FsTree) :
    bigFilesList source rel (t :: ts)
      = bigFiles source (rel ++ [t.name]) t ++ bigFilesList source rel ts := by
  unfold bigFilesList
  simp only [List.foldl_cons]
  rw [foldl_append_out]
  simp

theorem walkList_dirSizes_source (source rel : List String) (ts : List FsTree)
    (IH : ∀ t' ∈ ts, ∀ (rel' : List String) (st' : ScanSt),
      (walkTree source rel' t' st').dirSizes source
        = st'.dirSizes source + totalSize t') :
    ∀ st : ScanSt, (walkList source rel ts st).dirSizes source
      = st.dirSizes source + totalSizeList ts := by
  induction ts with
  | nil => intro st; simp [walkList, totalSizeList]
  | cons t ts ih =>
    intro st
    have hcons : walkList source rel (t :: ts) st
        = walkList source rel ts (walkTree source (rel ++ [t.name]) t st) := rfl
    rw [hcons, ih (fun t' ht' => IH t' (List.mem_cons_of_mem _ ht')),
      IH t (List.mem_cons_self _ _), totalSizeList_cons]
    omega

theorem walkTree_dirSizes_source (source : List String) (t : FsTree) :
    ∀ (rel : List String) (st : ScanSt),
      (walkTree source rel t st).dirSizes source
        = st.dirSizes source + totalSize t := by
  cases t with
  | node nm fls subs =>
    intro rel st
    rw [walkTree_unfold, totalSize_unfold,
      walkList_dirSizes_source source rel subs
        (fun t' ht' => walkTree_dirSizes_source source t')]
    simp only [climbRel_source]
    omega
termination_by sizeOf t
decreasing_by
  have := List.sizeOf_lt_of_mem ht'
  simp only [FsTree.node.sizeOf_spec]
  omega

theorem walkList_files (source rel : List String) (ts : List FsTree)
    (IH : ∀ t' ∈ ts, ∀ (rel' : List String) (st' : ScanSt),
      (walkTree source rel' t' st').files = st'.files ++ bigFiles source rel' t') :
    ∀ st : ScanSt, (walkList source rel ts st).files
      = st.files ++ bigFilesList source rel ts := by
  induction ts with
  | nil => intro st; simp [walkList, bigFilesList]
  | cons t ts ih =>
    intro st
    have hcons : walkList source rel (t :: ts) st
        = walkList source rel ts (walkTree source (rel ++ [t.name]) t st) := rfl
    rw [hcons, ih (fun t' ht' => IH t' (List.mem_cons_of_mem _ ht')),
      IH t (List.mem_cons_self _ _), bigFilesList_cons]
    simp [List.append_assoc]

theorem walkTree_files (source : List String) (t : FsTree) :
    ∀ (rel : List String) (st : ScanSt),
      (walkTree source rel t st).files = st.files ++ bigFiles source rel t := by
  cases t with
  | node nm fls subs =>
    intro rel st
    rw [walkTree_unfold, bigFiles_unfold,
      walkList_files source rel subs (fun t' ht' => walkTree_files source t')]
    simp [List.append_assoc]
termination_by sizeOf t
decreasing_by
  have := List.sizeOf_lt_of_mem ht'
  simp only [FsTree.node.sizeOf_spec]
  omega

/-- C4 (confirmed).  For every scanned root tree, the cumulative size the
scan records for the root equals the sum of the sizes of every file at
or beneath it, a size that fails to read contributing `0`
(`get_file_size`): each walked directory's direct-file total is climbed
into every ancestor up to and including the root, so the root
accumulates every file exactly once. -/
theorem c4_cumulative_root (source : List String) (t : FsTree) :
    (walkTree source [] t initScan).dirSizes source = totalSize t := by
  rw [walkTree_dirSizes_source]
  simp [initScan]

/-- C6 (confirmed).  The scan's `all_files` is exactly the list of files
whose `get_file_size` strictly exceeds `1024 * 1024` bytes (so a file is
appended iff it is strictly larger than 1 MiB), while the root's
cumulative total counts every file regardless of size (`totalSize` sums
all files, not only the recorded ones). -/
theorem c6_threshold_and_totals (source : List String) (t : FsTree) :
    (walkTree source [] t initScan).files = bigFiles source [] t ∧
    (walkTree source [] t initScan).dirSizes source = totalSize t := by
  constructor
  · rw [walkTree_files]
    simp [initScan]
  · rw [walkTree_dirSizes_source]
    simp [initScan]

/-- C9 (confirmed).  `format_size` is not total over its unit list: it
returns Python's implicit `None` exactly for the sizes of at least
`1024^5` bytes (1 PiB), and a formatted string for every smaller size
(`"0 B"` included). -/
theorem c9_format_size_partial (size : Nat) :
    format_size size = none ↔ 1024 ^ 5 ≤ size := by
  have hq : (0 : ℚ) < 1024 := by norm_num
  unfold format_size
  by_cases h0 : size = 0
  · subst h0
    simp only [if_pos rfl]
    constructor
    · intro h
      exact absurd h (by simp)
    · intro h
      exact absurd h (by norm_num)
  · simp only [h0, if_false]
    simp only [format_size_go]
    split_ifs with h1 h2 h3 h4 h5
    · refine iff_of_false (by simp) ?_
      intro hge
      have hgeq : ((1024 : ℚ)) ^ 5 ≤ (size : ℚ) := by exact_mod_cast hge
      have hb : (1024 : ℚ) ≤ 1024 ^ 5 := by norm_num
      linarith
    · rw [div_lt_iff₀ hq] at h2
      refine iff_of_false (by simp) ?_
      intro hge
      have hgeq : ((1024 : ℚ)) ^ 5 ≤ (size : ℚ) := by exact_mod_cast hge
      have hb : (1024 : ℚ) * 1024 ≤ 1024 ^ 5 := by norm_num
      linarith
    · rw [div_lt_iff₀ hq, div_lt_iff₀ hq] at h3
      refine iff_of_false (by simp) ?_
      intro hge
      have hgeq : ((1024 : ℚ)) ^ 5 ≤ (size : ℚ) := by exact_mod_cast hge
      have hb : (1024 : ℚ) * 1024 * 1024 ≤ 1024 ^ 5 := by norm_num
      linarith
    · rw [div_lt_iff₀ hq, div_lt_iff₀ hq, div_lt_iff₀ hq] at h4
      refine iff_of_false (by simp) ?_
      intro hge
      have hgeq : ((1024 : ℚ)) ^ 5 ≤ (size : ℚ) := by exact_mod_cast hge
      have hb : (1024 : ℚ) * 1024 * 1024 * 1024 ≤ 1024 ^ 5 := by norm_num
      linarith
    · rw [div_lt_iff₀ hq, div_lt_iff₀ hq, div_lt_iff₀ hq, div_lt_iff₀ hq] at h5
      refine iff_of_false (by simp) ?_
      intro hge
      have hgeq : ((1024 : ℚ)) ^ 5 ≤ (size : ℚ) := by exact_mod_cast hge
      have hb : (1024 : ℚ) ^ 5 = 1024 * 1024 * 1024 * 1024 * 1024 := by norm_num
      linarith
    · refine iff_of_true rfl ?_
      rw [not_lt, le_div_iff₀ hq, le_div_iff₀ hq, le_div_iff₀ hq, le_div_iff₀ hq] at h5
      have hgeq : ((1024 : ℚ)) ^ 5 ≤ (size : ℚ) := by
        have hb : (1024 : ℚ) ^ 5 = 1024 * 1024 * 1024 * 1024 * 1024 := by norm_num
        linarith
      exact_mod_cast hgeq

theorem headThroughLastSlash_append (t name : List Char) (hname : '/' ∉ name) :
    headThroughLastSlash (t ++ '/' :: name) = t ++ ['/'] := by
  induction t with
  | nil =>
    simp only [List.nil_append, headThroughLastSlash]
    simp [hname]
  | cons c t ih =>
    simp only [List.cons_append, headThroughLastSlash, List.append_eq]
    rw [if_pos (by simp), ih]

theorem rstripSlashes_append_slash (t : List Char) :
    rstripSlashes (t ++ ['/']) = rstripSlashes t := by
  unfold rstripSlashes
  rw [show (t ++ ['/']).reverse = '/' :: t.reverse by simp]
  rw [List.dropWhile_cons]
  simp

theorem length_rstripSlashes_le (t : List Char) :
    (rstripSlashes t).length ≤ t.length := by
  unfold rstripSlashes
  rw [List.length_reverse]
  calc (t.reverse.dropWhile (fun c => c = '/')).length
      ≤ t.reverse.length := List.Sublist.length_le (List.dropWhile_sublist _)
    _ = t.length := List.length_reverse t

theorem pyDirname_append_noslash (source name : String)
    (hslash : pyEndswith source "/" = true) (hnoslash : '/' ∉ name.data) :
    pyDirname (source ++ name) = pyDirname source := by
  obtain ⟨t, ht⟩ : ∃ t, t ++ ['/'] = source.data :=
    List.isSuffixOf_iff_suffix.mp hslash
  have hd : (source ++ name).data = t ++ '/' :: name.data := by
    rw [String.data_append, ← ht]
    simp
  have hd2 : source.data = t ++ '/' :: ([] : List Char) := by
    rw [← ht]
  unfold pyDirname
  rw [hd, hd2, headThroughLastSlash_append t name.data hnoslash,
    headThroughLastSlash_append t [] (by simp)]

theorem pyDirname_of_trailing_slash (source : String)
    (hslash : pyEndswith source "/" = true)
    (hnotall : source.data.all (fun c => c = '/') = false) :
    pyDirname source = ⟨rstripSlashes source.data⟩ := by
  obtain ⟨t, ht⟩ : ∃ t, t ++ ['/'] = source.data :=
    List.isSuffixOf_iff_suffix.mp hslash
  unfold pyDirname
  have hhead : headThroughLastSlash source.data = source.data := by
    conv_lhs => rw [← ht]
    rw [show (t ++ ['/'] : List Char) = t ++ '/' :: [] from rfl,
      headThroughLastSlash_append t [] (by simp), ht]
  rw [hhead, if_neg]
  rintro (h | h)
  · rw [← ht] at h
    simp at h
  · rw [h] at hnotall
    exact Bool.noConfusion hnotall

theorem pyJoin_trailing_slash (source name : String)
    (hslash : pyEndswith source "/" = true) (hnoslash : '/' ∉ name.data) :
    pyJoin source name = source ++ name := by
  unfold pyJoin
  have hps : pyStartswith name "/" = false := by
    unfold pyStartswith
    cases hnd : name.data with
    | nil => rfl
    | cons c cs =>
      by_cases hc : c = '/'
      · exact absurd (hnd ▸ (hc ▸ List.mem_cons_self c cs)) hnoslash
      · simp [List.isPrefixOf, hc]
        exact fun h => hc h.symm
  rw [hps]
  simp only [Bool.false_eq_true, if_false]
  rw [if_pos (Or.inr hslash)]

/-- C10, counterexample.  The claim's scenario — a scan root given with
a trailing separator, which never equals any `os.path.dirname` iterate
of a walked directory and is not the dirname fixed point — does arise
(`"/a/b/"`, walked child `"/a/b/sub"`), but the climb does not loop
forever: the loop's second break condition
`temp_path == os.path.dirname(source)` fires on the very second
iteration. -/
theorem c10_counterexample :
    pyEndswith "/a/b/" "/" = true ∧
    pyDirname "/a/b/sub" = "/a/b" ∧ pyDirname "/a/b" = "/a" ∧
    pyDirname "/a" = "/" ∧ pyDirname "/" = "/" ∧
    ("/a/b/" ∉ ["/a/b/sub", "/a/b", "/a", "/"]) ∧
    (climbLoop 2 "/a/b/" "/a/b/sub" 7 (fun _ => 0)).isSome = true := by
  decide

/-- C10, amended.  The accumulation loop terminates for trailing-slash
roots as well: for any root ending in `/` (and not consisting solely of
slashes) and any walked child directory `os.path.join(root, name)` with
a slash-free nonempty name, the loop halts within two iterations — on
the first it steps to `os.path.dirname` of the child, which equals
`os.path.dirname(root)` and triggers the loop's second break condition.
The normalized built-in roots break on the `temp_path == source`
comparison instead; the nontermination scenario does not arise for
walked directories. -/
theorem c10_climb_terminates (source name : String) (n : Nat) (m : String → Nat)
    (h1 : pyEndswith source "/" = true)
    (h2 : source.data.all (fun c => c = '/') = false)
    (h3 : name ≠ "") (h4 : '/' ∉ name.data) :
    (climbLoop 2 source (pyJoin source name) n m).isSome = true := by
  obtain ⟨t, ht⟩ : ∃ t, t ++ ['/'] = source.data :=
    List.isSuffixOf_iff_suffix.mp h1
  rw [pyJoin_trailing_slash source name h1 h4]
  have hdn : pyDirname (source ++ name) = pyDirname source :=
    pyDirname_append_noslash source name h1 h4
  have hname_ne : name.data ≠ [] := by
    intro hc
    exact h3 (String.ext (by simp [hc]))
  have hne1 : source ++ name ≠ source := by
    intro hc
    have := congrArg String.data hc
    rw [String.data_append] at this
    have hlen := congrArg List.length this
    simp only [List.length_append] at hlen
    exact hname_ne (List.eq_nil_of_length_eq_zero (by omega))
  have hne2 : source ++ name ≠ pyDirname source := by
    rw [pyDirname_of_trailing_slash source h1 h2]
    intro hc
    have := congrArg String.data hc
    rw [String.data_append] at this
    have hlen := congrArg List.length this
    simp only [List.length_append] at hlen
    have hr : (rstripSlashes source.data).length ≤ t.length := by
      rw [← ht, rstripSlashes_append_slash]
      exact length_rstripSlashes_le t
    have hsl : source.data.length = t.length + 1 := by
      rw [← ht]
      simp
    have : 1 ≤ name.data.length := by
      cases hn : name.data with
      | nil => exact absurd hn hname_ne
      | cons a l => simp
    omega
  rw [climbLoop]
  rw [if_neg (by push_neg; exact ⟨hne1, hne2⟩)]
  rw [climbLoop]
  rw [if_pos (Or.inr hdn)]
  rfl

theorem c10_climb_terminates_witness :
    (climbLoop 2 "/a/b/" (pyJoin "/a/b/" "sub") 7 (fun _ => 0)).isSome = true :=
  c10_climb_terminates "/a/b/" "sub" 7 (fun _ => 0)
    (by decide) (by decide) (by decide) (by decide)

end Cleanup
